import Mathlib

/-!
# Verification of the Kenya Legal AI retrieval core

Shallow embedding of the repository's two algorithmic components:

* `src/processing/document_processor.py` — the legal-aware chunker
  (`_split_by_legal_sections`, `_merge_small_sections`,
  `_split_large_section`, `chunk_document`);
* `src/retrieval/retrieval_pipeline.py` — the hybrid ranking pipeline
  (`_apply_keyword_boost`, `_apply_hierarchy_boost`, `_infer_division`,
  `_apply_division_boost`, `retrieve`, `retrieve_for_context`).

Modelling conventions:

* Python strings are `List Char`; Python float scores are modelled exactly
  over `ℚ` (all constants in the source are short decimals).
* A hit record is a structure whose optional fields are `Option`-valued:
  `none` models a dict key that is absent (or `None`).
* Python code that can raise (`result["text"]` on a missing key) is
  modelled in `Option`: `none` is an uncaught exception.
* ASCII approximations are used for `str.lower`, `\s`, `\d` and `[A-Z]`;
  all inputs the claims exercise are ASCII.
-/

namespace KenyaLegal

-- Restore kernel evaluation of rational arithmetic inside this file, so that
-- concrete runs of the embedded pipeline can be settled by `decide`.
attribute [local semireducible] Rat.add Rat.mul Rat.inv Rat.sub Rat.ofScientific

/-- Python string type in this embedding. -/
abbrev Str := List Char

/-- ASCII whitespace, the `\s` class and `str.split()` / `str.strip()`
whitespace of the Python source restricted to ASCII. -/
def pyIsWs (c : Char) : Bool :=
  c = ' ' || c = '\t' || c = '\n' || c = '\r' || c = '\x0b' || c = '\x0c'

/-- `str.lower` (ASCII). -/
def pyLower (s : Str) : Str := s.map Char.toLower

/-- Drop the maximal leading whitespace run. -/
def pyDropWs : Str → Str
  | [] => []
  | c :: r => if pyIsWs c then pyDropWs r else c :: r

/-- Python `str.strip()`: drop leading and trailing whitespace. -/
def pyStrip (s : Str) : Str := (pyDropWs ((pyDropWs s).reverse)).reverse

/-- Python substring containment `needle in hay`. -/
def containsSub : Str → Str → Bool
  | [], needle => needle.isEmpty
  | h :: t, needle => needle.isPrefixOf (h :: t) || containsSub t needle

/-- Python `str.split()` (no argument): split on whitespace runs, dropping
empty pieces. -/
def pySplitWsGo : Str → Str → List Str
  | acc, [] => if acc.isEmpty then [] else [acc.reverse]
  | acc, c :: r =>
    if pyIsWs c then
      (if acc.isEmpty then [] else [acc.reverse]) ++ pySplitWsGo [] r
    else
      pySplitWsGo (c :: acc) r

def pySplitWs (s : Str) : List Str := pySplitWsGo [] s

/-- The non-whitespace characters of a string, in order.  Used to state
whitespace-insensitive reconstruction. -/
def nonWs (s : Str) : Str := s.filter (fun c => !(pyIsWs c))

-- ─── Ranking pipeline data model ─────────────────────────────────────────────

/-- A hit record flowing through `RetrievalPipeline`.  `score` is the raw
similarity score (always present, caller-supplied); every other field models a
dict key that may be absent (`none`).  The last four fields are written by the
ranking stages. -/
structure Hit where
  score : ℚ
  text : Option Str
  court : Option Str
  document_title : Option Str
  sect : Option Str               -- the "section" key (Lean reserves that word)
  citation : Option Str
  date : Option Str
  adjusted_score : Option ℚ
  keyword_boost : Option ℚ
  hierarchy_weight : Option ℚ
  division_boost : Option ℚ
deriving DecidableEq

/-- A fresh search hit: only `score`, `text`, `court`, `document_title` set,
as produced by the repository's own ranking test fixture. -/
def mkSearchHit (score : ℚ) (text court title : Option Str) : Hit :=
  ⟨score, text, court, title, none, none, none, none, none, none, none⟩

/-- Python truthiness of an optional string (`None`/missing/empty ↦ false). -/
def truthy : Option Str → Bool
  | none => false
  | some s => !s.isEmpty

-- ─── Court authority table (COURT_HIERARCHY_SCORES) ──────────────────────────

/-- `COURT_HIERARCHY_SCORES`, in the source's insertion order (the fuzzy scan
iterates in this order and takes the first match). -/
def courtHierarchyScores : List (Str × ℚ) :=
  [ ("Supreme Court".toList, 1),
    ("Supreme Court of Kenya".toList, 1),
    ("Court of Appeal".toList, 17/20),
    ("Court of Appeal of Kenya".toList, 17/20),
    ("High Court".toList, 7/10),
    ("High Court of Kenya".toList, 7/10),
    ("Constitutional Court".toList, 7/10),
    ("Constitutional and Human Rights Division".toList, 7/10),
    ("Commercial Court".toList, 7/10),
    ("Family Court".toList, 7/10),
    ("Employment and Labour Relations Court".toList, 7/10),
    ("ELRC".toList, 7/10),
    ("Environment and Land Court".toList, 7/10),
    ("ELC".toList, 7/10),
    ("East African Court of Justice".toList, 13/20),
    ("EACJ".toList, 13/20),
    ("African Court on Human and Peoples\x27 Rights".toList, 3/5),
    ("Magistrate Court".toList, 2/5),
    ("Magistrates Court".toList, 2/5),
    ("Chief Magistrate Court".toList, 21/50),
    ("Senior Resident Magistrate".toList, 2/5),
    ("Principal Magistrate".toList, 41/100),
    ("".toList, 11/20) ]

/-- `_DEFAULT_HIERARCHY_SCORE = 0.50`. -/
def defaultHierarchyScore : ℚ := 1/2

/-- Exact dict lookup `court in COURT_HIERARCHY_SCORES`. -/
def lookupExact (k : Str) : List (Str × ℚ) → Option ℚ
  | [] => none
  | e :: rest => if e.1 = k then some e.2 else lookupExact k rest

/-- The fuzzy condition of the source's scan:
`known_court.lower() in court.lower() or court.lower() in known_court.lower()`. -/
def fuzzyMatch (court known : Str) : Bool :=
  containsSub (pyLower court) (pyLower known) || containsSub (pyLower known) (pyLower court)

/-- The `for known_court, w in COURT_HIERARCHY_SCORES.items(): ... break` scan:
first entry with a truthy key that fuzzy-matches wins, else the default. -/
def fuzzyScan (court : Str) : List (Str × ℚ) → ℚ
  | [] => defaultHierarchyScore
  | e :: rest =>
    if e.1 ≠ [] && fuzzyMatch court e.1 then e.2 else fuzzyScan court rest

/-- Authority weight of a (already stripped) court string: exact match first,
then the fuzzy scan. -/
def hierarchyWeightOf (court : Str) : ℚ :=
  match lookupExact court courtHierarchyScores with
  | some w => w
  | none => fuzzyScan court courtHierarchyScores

-- ─── Stage 2: _apply_hierarchy_boost ─────────────────────────────────────────

/-- Per-hit body of `_apply_hierarchy_boost`: `court = (result.get("court") or
"").strip()`, weight lookup, multiplicative update of `adjusted_score`. -/
def hierarchyBoostHit (h : Hit) : Hit :=
  let court := pyStrip (h.court.getD [])
  let w := hierarchyWeightOf court
  let cur := h.adjusted_score.getD h.score
  { h with adjusted_score := some (cur * w), hierarchy_weight := some w }

def applyHierarchyBoost (results : List Hit) : List Hit :=
  results.map hierarchyBoostHit

-- ─── Stage 1: _apply_keyword_boost ───────────────────────────────────────────

/-- The fixed marker substrings of `_apply_keyword_boost`. -/
def legalMarkers : List Str :=
  [ "article".toList, "section".toList, "act".toList, "cap".toList,
    "court".toList, "appeal".toList, "petition".toList, "constitution".toList,
    "schedule".toList, "regulation".toList, "gazette".toList, "treaty".toList,
    "judgment".toList, "v.".toList, "vs".toList ]

/-- `legal_keywords`: the distinct query terms containing a marker substring.
`set(query_lower.split())` deduplicates; iteration order does not affect the
boost sum, so first-occurrence order is used. -/
def legalKeywords (queryLower : Str) : List Str :=
  ((pySplitWs queryLower).dedup).filter
    (fun t => legalMarkers.any (fun m => containsSub t m))

/-- Per-hit body of `_apply_keyword_boost` with `boost_factor = 0.10`.
`result["text"]` raises on an absent key, modelled as `none`. -/
def keywordBoostHit (kws : List Str) (queryLower : Str) (h : Hit) : Option Hit :=
  match h.text with
  | none => none
  | some t =>
    let tl := pyLower t
    let bf : ℚ := 1/10
    let b0 : ℚ := bf * ((kws.filter (fun kw => containsSub tl kw)).length : ℚ)
    let b : ℚ := if 15 < queryLower.length && containsSub tl queryLower then b0 + bf * 2 else b0
    some { h with adjusted_score := some (h.score + b), keyword_boost := some b }

/-- The `for result in results` loop: apply `f` to each element in order,
aborting at the first raise (`none`), as the Python loop does. -/
def mapOpt (f : Hit → Option Hit) : List Hit → Option (List Hit)
  | [] => some []
  | h :: t =>
    match f h with
    | none => none
    | some h' => (mapOpt f t).map (fun l => h' :: l)

/-- `_apply_keyword_boost` over the result list; the first hit with a missing
`text` key aborts the call (Python `KeyError`). -/
def applyKeywordBoost (query : Str) (results : List Hit) : Option (List Hit) :=
  let ql := pyLower query
  mapOpt (keywordBoostHit (legalKeywords ql) ql) results

-- ─── Stages 3/4: division routing ────────────────────────────────────────────

/-- `TOPIC_DIVISION_MAP` in source order. -/
def topicDivisionMap : List (List Str × Str) :=
  [ ( [ "land".toList, "property".toList, "title deed".toList, "tenure".toList,
        "elc".toList, "nlc".toList, "lease".toList, "eviction".toList,
        "trespass".toList, "adverse possession".toList,
        "compulsory acquisition".toList, "land registration".toList,
        "community land".toList ],
      "Environment and Land Court".toList ),
    ( [ "employment".toList, "labour".toList, "labor".toList, "elrc".toList,
        "dismissal".toList, "unfair termination".toList, "retrenchment".toList,
        "redundancy".toList, "collective bargaining".toList,
        "trade union".toList, "salary".toList, "wages".toList,
        "workplace".toList, "employer".toList, "employee".toList ],
      "Employment and Labour Relations Court".toList ),
    ( [ "constitutional".toList, "petition".toList, "article".toList,
        "fundamental rights".toList, "bill of rights".toList,
        "chapter 4".toList, "enforcement".toList, "dignity".toList,
        "equality".toList, "discrimination".toList, "fair trial".toList,
        "arbitrary".toList, "detention".toList ],
      "High Court".toList ),
    ( [ "family".toList, "divorce".toList, "matrimonial".toList,
        "custody".toList, "guardianship".toList, "maintenance".toList,
        "succession".toList, "intestate".toList, "probate".toList,
        "marriage".toList, "domestic violence".toList ],
      "High Court".toList ),
    ( [ "eac".toList, "eacj".toList, "east african community".toList,
        "treaty".toList, "african union".toList, "au".toList,
        "international law".toList, "ratified".toList,
        "human rights commission".toList ],
      "East African Court of Justice".toList ) ]

/-- `_DIVISION_BOOST = 0.12`. -/
def divisionBoostAmount : ℚ := 3/25

/-- `_infer_division`: best strictly-higher keyword count wins (first rule
wins ties); at least one keyword match required. -/
def inferDivision (query : Str) : Option Str :=
  let ql := pyLower query
  let best := topicDivisionMap.foldl
    (fun (acc : Option Str × Nat) rule =>
      let count := (rule.1.filter (fun kw => containsSub ql kw)).length
      if acc.2 < count then (some rule.2, count) else acc)
    (none, 0)
  if 1 ≤ best.2 then best.1 else none

/-- Per-hit body of `_apply_division_boost`: additive 0.12 and the
`division_boost` key written only when the court (`.get`, defaulted, stripped)
fuzzy-matches the division. -/
def divisionBoostHit (division : Str) (h : Hit) : Hit :=
  if containsSub (pyLower (pyStrip (h.court.getD []))) (pyLower division)
      || containsSub (pyLower division) (pyLower (pyStrip (h.court.getD []))) then
    { h with
        adjusted_score := some ((h.adjusted_score.getD h.score) + divisionBoostAmount),
        division_boost := some divisionBoostAmount }
  else h

def applyDivisionBoost (results : List Hit) (division : Str) : List Hit :=
  results.map (divisionBoostHit division)

-- ─── Stage 5: sort and truncate; retrieve ────────────────────────────────────

/-- The sort key `x.get("adjusted_score", x["score"])`. -/
def sortKey (h : Hit) : ℚ := h.adjusted_score.getD h.score

/-- Stable descending insertion: an element is placed after all earlier
elements with a key that is not strictly smaller, mirroring Python's stable
`list.sort(key=..., reverse=True)`. -/
def insertDesc (x : Hit) : List Hit → List Hit
  | [] => [x]
  | y :: ys => if sortKey y < sortKey x then x :: y :: ys else y :: insertDesc x ys

def sortByScoreDesc (l : List Hit) : List Hit :=
  l.foldl (fun acc x => insertDesc x acc) []

/-- `RetrievalPipeline.retrieve`, with the external vector search replaced by
its result list `hits` (the pipeline's own logic starts after the search).
`court` is the explicit court filter; `rerankTopK` is
`settings.rerank_top_k` (default 5).  `none` models an uncaught exception. -/
def rankHits (query : Str) (hits : List Hit) (court : Option Str)
    (rerankTopK : Nat) : Option (List Hit) :=
  if hits.isEmpty then some [] else
    (applyKeywordBoost query hits).map (fun r1 =>
      let r2 := applyHierarchyBoost r1
      let r3 :=
        match inferDivision query with
        | some d => if truthy court then r2 else applyDivisionBoost r2 d
        | none => r2
      (sortByScoreDesc r3).take rerankTopK)

/-- The composite per-hit scoring transformation the pipeline applies to each
hit: keyword boost, then hierarchy boost, then (when a division was inferred
and no explicit court filter was given, `divOpt = some d`) the division boost.
`retrieve` maps exactly this over the result list before sorting. -/
def rankStagesHit (query : Str) (divOpt : Option Str) (h : Hit) : Option Hit :=
  (keywordBoostHit (legalKeywords (pyLower query)) (pyLower query) h).map
    (fun h1 =>
      let h2 := hierarchyBoostHit h1
      match divOpt with
      | some d => divisionBoostHit d h2
      | none => h2)

-- ─── Context assembly: retrieve_for_context ──────────────────────────────────

/-- `_authority_label`. -/
def authorityLabel (w : ℚ) : Str :=
  if 1 ≤ w then "Supreme Court (binding)".toList
  else if 17/20 ≤ w then "Court of Appeal (binding on HC)".toList
  else if 7/10 ≤ w then "High Court / Specialist Court".toList
  else if 3/5 ≤ w then "Regional Court (persuasive)".toList
  else if 2/5 ≤ w then "Magistrate Court (persuasive)".toList
  else "Unknown".toList

/-- `source_info`: the truthy metadata fields, in the source's order. -/
def sourceInfoOf (h : Hit) : List Str :=
  (if truthy h.document_title then [h.document_title.getD []] else []) ++
  (if truthy h.sect then [h.sect.getD []] else []) ++
  (if truthy h.citation then [h.citation.getD []] else []) ++
  (if truthy h.court then [h.court.getD []] else []) ++
  (if truthy h.date then [h.date.getD []] else [])

/-- `" | ".join(source_info) if source_info else "Unknown Source"`. -/
def sourceLabelOf (h : Hit) : Str :=
  let info := sourceInfoOf h
  if info.isEmpty then "Unknown Source".toList
  else List.intercalate " | ".toList info

def natToStr (n : Nat) : Str := (toString n).toList

/-- The `[Source {i}: {label} | Authority: {authority}]\n` header line. -/
def headerOf (i : Nat) (h : Hit) : Str :=
  "[Source ".toList ++ natToStr i ++ ": ".toList ++ sourceLabelOf h ++
  " | Authority: ".toList ++ authorityLabel (h.hierarchy_weight.getD 0) ++
  "]".toList ++ ['\n']

/-- The per-result block `header + result["text"] + "\n"`; `result["text"]`
raises on an absent key. -/
def chunkOf (i : Nat) (h : Hit) : Option Str :=
  h.text.map (fun t => headerOf i h ++ t ++ ['\n'])

/-- The accumulation loop of `retrieve_for_context`: `i` is the 1-based source
number, `total` the running `total_length`; the loop `break`s (returning no
further parts) as soon as a block would push `total` past `maxLen`. -/
def contextLoop (maxLen : Nat) : List Hit → Nat → Nat → Option (List Str)
  | [], _, _ => some []
  | h :: rest, i, total =>
    match chunkOf i h with
    | none => none
    | some c =>
      if maxLen < total + c.length then some []
      else (contextLoop maxLen rest (i + 1) (total + c.length)).map
        (fun parts => c :: parts)

/-- The `"\n---\n"` delimiter of the final join. -/
def contextDelim : Str := "\n---\n".toList

/-- `"\n---\n".join(parts)`. -/
def joinDelim : List Str → Str
  | [] => []
  | [p] => p
  | p :: rest => p ++ contextDelim ++ joinDelim rest

/-- `retrieve_for_context`, starting from the already ranked result list. -/
def retrieveForContext (results : List Hit) (maxLen : Nat) : Option Str :=
  (contextLoop maxLen results 1 0).map joinDelim

/-- All per-result blocks of a result list, numbered from `i`, with no length
budget.  Used to state that truncation only drops whole trailing results. -/
def chunksFrom (i : Nat) : List Hit → Option (List Str)
  | [] => some []
  | h :: rest =>
    match chunkOf i h with
    | none => none
    | some c => (chunksFrom (i + 1) rest).map (fun l => c :: l)

-- ─── Chunker: sentence splitting (re.split r"(?<=[.!?])\s+") ─────────────────

/-- The `[.!?]` lookbehind class. -/
def isSentEnd (c : Char) : Bool := c = '.' || c = '!' || c = '?'

def headIsWs : Str → Bool
  | [] => false
  | c :: _ => pyIsWs c

/-- Scanner for `re.split(r"(?<=[.!?])\s+", text)`: accumulate the current
sentence (reversed in `acc`); a whitespace run immediately after `.` `!` `?`
is a separator.  `sep = true` while consuming the (maximal) whitespace run of
a separator. -/
def sGo (sep : Bool) (acc : Str) : Str → List Str
  | [] => [acc.reverse]
  | c :: rest =>
    if sep && pyIsWs c then sGo sep acc rest
    else if isSentEnd c && headIsWs rest then (acc.reverse ++ [c]) :: sGo true [] rest
    else sGo false (c :: acc) rest

/-- `re.split(r"(?<=[.!?])\s+", text)` (ASCII `\s`). -/
def splitSentences (text : Str) : List Str := sGo false [] text

-- ─── Chunker: _split_large_section ───────────────────────────────────────────

/-- The greedy sentence-accumulation loop of `_split_large_section`:
a sentence is appended (joined by one space) while
`len(current_chunk) + len(sentence)` stays within `chunk_size`, else the
current piece is flushed (stripped) and the sentence starts a new piece. -/
def greedyGo (cs : Nat) : List Str → Str → List Str
  | [], current => if current.isEmpty then [] else [pyStrip current]
  | s :: rest, current =>
    if cs < current.length + s.length then
      (if current.isEmpty then [] else [pyStrip current]) ++ greedyGo cs rest s
    else
      greedyGo cs rest (if current.isEmpty then s else current ++ ' ' :: s)

/-- `_split_large_section(text)` with `chunk_size = cs`. -/
def splitLargeSection (cs : Nat) (text : Str) : List Str :=
  if text.length ≤ cs then [text] else greedyGo cs (splitSentences text) []

-- ─── Chunker: _merge_small_sections ──────────────────────────────────────────

/-- The accumulation loop of `_merge_small_sections`: a section joins the
buffer (separated by a blank line) while `len(buffer) + len(section)` is below
`min_size`; otherwise the old buffer is emitted and the section starts the new
buffer.  A final non-empty buffer is flushed. -/
def mergeGo (minSize : Nat) : List Str → Str → List Str
  | [], buffer => if buffer.isEmpty then [] else [buffer]
  | s :: rest, buffer =>
    if buffer.length + s.length < minSize then
      mergeGo minSize rest (if buffer.isEmpty then s else buffer ++ '\n' :: '\n' :: s)
    else
      (if buffer.isEmpty then [] else [buffer]) ++ mergeGo minSize rest s

/-- `_merge_small_sections(sections, min_size)` (default `min_size = 200`). -/
def mergeSmallSections (minSize : Nat) (sections : List Str) : List Str :=
  mergeGo minSize sections []

-- ─── Chunker: _split_by_legal_sections ───────────────────────────────────────

def pyIsDigit (c : Char) : Bool := '0' ≤ c && c ≤ '9'

def pyIsUpper (c : Char) : Bool := 'A' ≤ c && c ≤ 'Z'

/-- The `[IVXLCDM\d]` class of the Part/Chapter pattern. -/
def isRomanOrDigit (c : Char) : Bool := "IVXLCDM".toList.contains c || pyIsDigit c

def headIs (p : Char → Bool) : Str → Bool
  | [] => false
  | c :: _ => p c

/-- `\s+` followed by `p` (with maximal-munch whitespace, which is the only
way these patterns can match since each continuation starts with a
non-whitespace class). -/
def wsPlusThen (p : Str → Bool) : Str → Bool
  | [] => false
  | c :: r => pyIsWs c && p (pyDropWs r)

/-- Match a literal and return the remainder. -/
def matchLit (lit s : Str) : Option Str :=
  if lit.isPrefixOf s then some (s.drop lit.length) else none

/-- `\s*{kw}\s+\d` after the leading newline. -/
def kwNumLook (kw : Str) (r : Str) : Bool :=
  match matchLit kw (pyDropWs r) with
  | some r2 => wsPlusThen (headIs pyIsDigit) r2
  | none => false

/-- Zero-width pattern `(?=\n\s*Article\s+\d+)`. -/
def lookArticle : Str → Bool
  | '\n' :: r => kwNumLook "Article".toList r
  | _ => false

/-- Zero-width pattern `(?=\n\s*Section\s+\d+)`. -/
def lookSect : Str → Bool
  | '\n' :: r => kwNumLook "Section".toList r
  | _ => false

def partAlt (kw : Str) (r : Str) : Bool :=
  match matchLit kw r with
  | some r2 => wsPlusThen (headIs isRomanOrDigit) r2
  | none => false

/-- Zero-width pattern `(?=\n\s*(?:PART|Part|CHAPTER|Chapter)\s+[IVXLCDM\d]+)`. -/
def lookPart : Str → Bool
  | '\n' :: r =>
    partAlt "PART".toList (pyDropWs r) || partAlt "Part".toList (pyDropWs r) ||
    partAlt "CHAPTER".toList (pyDropWs r) || partAlt "Chapter".toList (pyDropWs r)
  | _ => false

def dropDigits : Str → Str
  | [] => []
  | c :: r => if pyIsDigit c then dropDigits r else c :: r

/-- Zero-width pattern `(?=\n\s*\d+\.\s+[A-Z])`. -/
def lookNumPara : Str → Bool
  | '\n' :: r =>
    headIs pyIsDigit (pyDropWs r) &&
      (match dropDigits (pyDropWs r) with
       | '.' :: r2 => wsPlusThen (headIs pyIsUpper) r2
       | _ => false)
  | _ => false

/-- `re.split` on a zero-width lookahead `P`: cut immediately before every
position where `P` holds.  (Python additionally emits a leading empty piece
when `P` holds at position 0; the source immediately strips and drops empty
pieces, so that piece is omitted here.) -/
def lookGo (P : Str → Bool) (acc : Str) : Str → List Str
  | [] => [acc.reverse]
  | c :: rest =>
    if P (c :: rest) && !acc.isEmpty then acc.reverse :: lookGo P [c] rest
    else lookGo P (c :: acc) rest

def splitLookahead (P : Str → Bool) (text : Str) : List Str := lookGo P [] text

/-- `[s.strip() for s in sections if s.strip()]`. -/
def stripFilter (l : List Str) : List Str :=
  (l.map pyStrip).filter (fun s => !s.isEmpty)

/-- `text.split("\n\n")` (leftmost, non-overlapping). -/
def splitOnBlankGo (acc : Str) : Str → List Str
  | [] => [acc.reverse]
  | c :: rest =>
    match rest with
    | c2 :: rest2 =>
      if c = '\n' && c2 = '\n' then acc.reverse :: splitOnBlankGo [] rest2
      else splitOnBlankGo (c :: acc) (c2 :: rest2)
    | [] => splitOnBlankGo (c :: acc) []
termination_by l => l.length

def splitOnBlank (text : Str) : List Str := splitOnBlankGo [] text

/-- The four boundary patterns of `_split_by_legal_sections`, in priority
order. -/
def sectionSplitPatterns : List (Str → Bool) :=
  [lookArticle, lookSect, lookPart, lookNumPara]

/-- Try each pattern in order; first one yielding more than one non-empty
stripped segment wins; else fall back to blank-line paragraphs. -/
def tryPatternsFor (text : Str) : List (Str → Bool) → List Str
  | [] => stripFilter (splitOnBlank text)
  | P :: Ps =>
    let secs := stripFilter (splitLookahead P text)
    if 1 < secs.length then secs else tryPatternsFor text Ps

/-- `_split_by_legal_sections`. -/
def splitByLegalSections (text : Str) : List Str :=
  tryPatternsFor text sectionSplitPatterns

-- ─── Chunker: chunk_document ─────────────────────────────────────────────────

/-- A produced chunk.  Only the fields the verified claims concern are kept:
the identifier fields are sha256 prefixes of ids, and the title/type/source/
metadata fields are copied verbatim from the arguments. -/
structure DocumentChunk where
  text : Str
  chunk_index : Nat
  total_chunks : Nat
deriving DecidableEq

/-- The source's `all_chunks_text`: the legal-section split, the small-section
merge (min 200), then the per-section size cap. -/
def allChunkTexts (cs : Nat) (cleaned : Str) : List Str :=
  ((mergeSmallSections 200 (splitByLegalSections cleaned)).map
    (splitLargeSection cs)).flatten

/-- `chunk_document` from the cleaned text on (its `clean_text` preprocessing
is applied upstream; the verified claims quantify over the cleaned text).
`cs` is `settings.chunk_size` (default 1000); `min_size` is 200 as in the
source's call. -/
def chunkDocument (cs : Nat) (cleaned : Str) : List DocumentChunk :=
  if cleaned.isEmpty then [] else
    (allChunkTexts cs cleaned).enum.map
      (fun p => ⟨p.2, p.1, (allChunkTexts cs cleaned).length⟩)

-- ─── The repository's own ranking fixture (tests/test_ranking.py) ────────────

def fixtureHits : List Hit :=
  [ mkSearchHit (4/5) (some "Land registration rules".toList)
      (some "Magistrate Court".toList) (some "Case A".toList),
    mkSearchHit (3/4) (some "Title deed dispute".toList)
      (some "Environment and Land Court".toList) (some "Case B".toList),
    mkSearchHit (7/10) (some "Constitutional right to property".toList)
      (some "Supreme Court".toList) (some "Case C".toList) ]

def fixtureQuery : Str := "land property dispute".toList

/-- Two hits with negative raw similarity score (cosine similarity may be
negative), equal on every claim-relevant field except the court. -/
def negScoreHits : List Hit :=
  [ mkSearchHit (-1) (some []) (some "Supreme Court".toList) none,
    mkSearchHit (-1) (some []) (some "Magistrate Court".toList) none ]

/-- Two bare ranked results whose per-result blocks are 50 characters each. -/
def ctxHits : List Hit :=
  [ mkSearchHit 1 (some ['t']) none none, mkSearchHit 1 (some ['t']) none none ]

-- ═══ Theorems ════════════════════════════════════════════════════════════════

/-- C1: on the repository's own fixture — raw scores 0.80 (Magistrate Court),
0.75 (Environment and Land Court), 0.70 (Supreme Court) and query
"land property dispute" — the pipeline infers the Environment and Land Court
division and returns adjusted scores 0.70 (Supreme Court), 0.645 (ELC),
0.32 (Magistrate), in that final order. -/
theorem court_ranking_fixture :
    inferDivision fixtureQuery = some "Environment and Land Court".toList ∧
    (rankHits fixtureQuery fixtureHits none 5).map
        (fun l => l.map (fun h => (h.document_title, h.adjusted_score))) =
      some [ (some "Case C".toList, some (7/10)),
             (some "Case B".toList, some (129/200)),
             (some "Case A".toList, some (8/25)) ] := by
  decide

/-- C2 counterexample: with `chunk_size = 5`, the section `"a. ab."` (length 6)
is emitted as the single piece `"a. ab."` of length 6 > 5, and that piece is
made of the two sentences `"a."` and `"ab."` — so a piece that is not a single
oversized sentence still exceeds `chunk_size` (the `" "` joiner is not counted
by the size check). -/
theorem size_cap_exceeds_chunk_size_cex :
    splitLargeSection 5 "a. ab.".toList = ["a. ab.".toList] ∧
    splitSentences "a. ab.".toList = ["a.".toList, "ab.".toList] ∧
    5 < ("a. ab.".toList).length := by
  decide

/-- C3 counterexample: a hit whose `text` key is absent makes the ranking call
raise (Python `KeyError` in `_apply_keyword_boost`), modelled as `none` —
the missing `text` field is not treated as an empty string. -/
theorem ranking_missing_text_raises_cex :
    rankHits ['q'] [mkSearchHit 1 none none none] none 5 = none := by
  decide

/-- C4 counterexample: two ranked results whose blocks are 50 characters each
fit a budget of 100 (the loop counts 50 + 50 = 100 ≤ 100), but the emitted
context block includes the 5-character `"\n---\n"` delimiter and has length
105 > 100 — the budget does not bound the delimiters. -/
theorem context_budget_exceeded_cex :
    (retrieveForContext ctxHits 100).map List.length = some 105 ∧ 100 < 105 := by
  decide

set_option maxRecDepth 4000 in
/-- C5 counterexample: with the default `min_size = 200`, the sections of
lengths 100 and 150 merge to the output `[100-char, 150-char]`: the first
emitted section (not the final flushed buffer) has length 100 < 200, because
the source emits the old buffer as soon as `len(buffer) + len(section)`
reaches `min_size`, before the buffer itself reaches it. -/
theorem merge_min_size_cex :
    mergeSmallSections 200 [List.replicate 100 'a', List.replicate 150 'b'] =
      [List.replicate 100 'a', List.replicate 150 'b'] ∧
    (List.replicate 100 'a').length < 200 := by
  decide

/-- C6 counterexample: for the cleaned text `"Article 1 a\nArticle 2 b"` the
chunker produces exactly one chunk, whose text `"Article 1 a\n\nArticle 2 b"`
differs from the cleaned text (the merge step re-joins sections with a blank
line where the original had a single newline) — so concatenating the chunk
texts (there are no between-chunk separators to ignore) does not reconstruct
the cleaned source text. -/
theorem chunk_concat_reconstruct_cex :
    "Article 1 a\nArticle 2 b".toList ≠ [] ∧
    (chunkDocument 1000 "Article 1 a\nArticle 2 b".toList).length = 1 ∧
    ((chunkDocument 1000 "Article 1 a\nArticle 2 b".toList).map
        DocumentChunk.text).flatten ≠ "Article 1 a\nArticle 2 b".toList := by
  decide

/-- C8 counterexample: two hits with equal raw score −1, equal
`keyword_boost` 0 and equal (absent) `division_boost`: the Supreme Court hit
(`hierarchy_weight` 1) ends with adjusted score −1, strictly below the
Magistrate Court hit (`hierarchy_weight` 0.4) at −0.4 — for negative raw
scores a strictly higher hierarchy weight gives a strictly lower adjusted
score. -/
theorem hierarchy_monotone_negative_score_cex :
    (rankHits ['q'] negScoreHits none 5).map (fun l => l.map Hit.score) =
      some [-1, -1] ∧
    (rankHits ['q'] negScoreHits none 5).map (fun l => l.map Hit.keyword_boost) =
      some [some 0, some 0] ∧
    (rankHits ['q'] negScoreHits none 5).map (fun l => l.map Hit.division_boost) =
      some [none, none] ∧
    (rankHits ['q'] negScoreHits none 5).map (fun l => l.map Hit.hierarchy_weight) =
      some [some (2/5), some 1] ∧
    (rankHits ['q'] negScoreHits none 5).map (fun l => l.map Hit.adjusted_score) =
      some [some (-(2/5)), some (-1)] ∧
    (-1 : ℚ) < -(2/5) ∧ (2 : ℚ)/5 < 1 :=
  ⟨by decide, by decide, by decide, by decide, by decide, by norm_num, by norm_num⟩

-- ─── Helper lemmas ───────────────────────────────────────────────────────────

theorem pyDropWs_length_le (l : Str) : (pyDropWs l).length ≤ l.length := by
  induction l with
  | nil => simp [pyDropWs]
  | cons c r ih =>
    unfold pyDropWs
    split
    · exact le_trans ih (Nat.le_succ _)
    · exact le_refl _

theorem pyStrip_length_le (l : Str) : (pyStrip l).length ≤ l.length := by
  unfold pyStrip
  rw [List.length_reverse]
  calc (pyDropWs ((pyDropWs l).reverse)).length
      ≤ ((pyDropWs l).reverse).length := pyDropWs_length_le _
    _ = (pyDropWs l).length := List.length_reverse _
    _ ≤ l.length := pyDropWs_length_le _

theorem keywordBoostHit_isSome (kws : List Str) (ql : Str) (h : Hit)
    (ht : h.text ≠ none) : ∃ h', keywordBoostHit kws ql h = some h' := by
  cases hh : h.text with
  | none => exact absurd hh ht
  | some t => exact ⟨_, by unfold keywordBoostHit; rw [hh]⟩

theorem mapOpt_isSome (f : Hit → Option Hit) (l : List Hit)
    (hf : ∀ h ∈ l, ∃ h', f h = some h') : ∃ r, mapOpt f l = some r := by
  induction l with
  | nil => exact ⟨[], rfl⟩
  | cons h t ih =>
    obtain ⟨h', hh⟩ := hf h (List.mem_cons_self h t)
    obtain ⟨r, hr⟩ := ih (fun x hx => hf x (List.mem_cons_of_mem _ hx))
    exact ⟨h' :: r, by simp [mapOpt, hh, hr]⟩

/-- C3 (amended): ranking never raises on a missing or malformed `court` field
(it is read with `.get` and coerced to the empty string), and it returns a
ranked list whenever every hit carries a `text` field; a hit with a missing
`text` field, however, raises (see the counterexample). -/
theorem ranking_total_when_text_present (query : Str) (hits : List Hit)
    (court : Option Str) (k : Nat) (htext : ∀ h ∈ hits, h.text ≠ none) :
    ∃ out, rankHits query hits court k = some out := by
  cases he : hits.isEmpty
  · obtain ⟨r1, hr1⟩ : ∃ r, applyKeywordBoost query hits = some r := by
      unfold applyKeywordBoost
      exact mapOpt_isSome _ _ (fun h hmem => keywordBoostHit_isSome _ _ h (htext h hmem))
    exact ⟨_, by unfold rankHits; rw [he, hr1]; rfl⟩
  · exact ⟨[], by unfold rankHits; rw [he]; rfl⟩

theorem ranking_total_when_text_present_witness :
    (∀ h ∈ [mkSearchHit 1 (some []) none none], h.text ≠ none) ∧
    ∃ out, rankHits ['q'] [mkSearchHit 1 (some []) none none] none 5 = some out :=
  ⟨by decide,
   ranking_total_when_text_present ['q'] [mkSearchHit 1 (some []) none none]
     none 5 (by decide)⟩

theorem fuzzyScan_eq_default (c : Str) (table : List (Str × ℚ))
    (hno : ∀ e ∈ table, e.1 ≠ [] → fuzzyMatch c e.1 = false) :
    fuzzyScan c table = defaultHierarchyScore := by
  induction table with
  | nil => rfl
  | cons e rest ih =>
    unfold fuzzyScan
    have hrest := ih (fun x hx => hno x (List.mem_cons_of_mem _ hx))
    by_cases h1 : e.1 = []
    · simp [h1, hrest]
    · simp [h1, hno e (List.mem_cons_self e rest) h1, hrest]

/-- C10: a hit whose `court` field is absent, `None` or whitespace-only strips
to the empty string, exact-matches the `""` sentinel of the authority table
and gets `hierarchy_weight` 0.55; a hit with a court name that matches no
table entry exactly nor by bidirectional case-insensitive substring is skipped
by the fuzzy scan (which ignores the falsy sentinel key) and gets the default
0.50 — two different weights. -/
theorem empty_vs_unknown_court_weight (h : Hit) :
    (pyStrip (h.court.getD []) = [] →
      (hierarchyBoostHit h).hierarchy_weight = some (11/20)) ∧
    (∀ s, h.court = some s →
      lookupExact (pyStrip s) courtHierarchyScores = none →
      (∀ e ∈ courtHierarchyScores, e.1 ≠ [] → fuzzyMatch (pyStrip s) e.1 = false) →
      (hierarchyBoostHit h).hierarchy_weight = some (1/2)) ∧
    (11 : ℚ)/20 ≠ 1/2 := by
  have hw : ∀ x : Hit, (hierarchyBoostHit x).hierarchy_weight =
      some (hierarchyWeightOf (pyStrip (x.court.getD []))) := fun _ => rfl
  refine ⟨fun h1 => ?_, fun s hs hlook hfuzzy => ?_, by norm_num⟩
  · rw [hw, h1]; decide
  · rw [hw, hs]
    simp only [Option.getD_some]
    unfold hierarchyWeightOf
    rw [hlook, fuzzyScan_eq_default _ _ hfuzzy]
    rfl

theorem empty_vs_unknown_court_weight_witness :
    (hierarchyBoostHit (mkSearchHit 1 (some []) none none)).hierarchy_weight =
      some (11/20) ∧
    (hierarchyBoostHit
        (mkSearchHit 1 (some []) (some "Zzz Tribunal".toList) none)).hierarchy_weight =
      some (1/2) :=
  ⟨(empty_vs_unknown_court_weight (mkSearchHit 1 (some []) none none)).1 (by decide),
   (empty_vs_unknown_court_weight
       (mkSearchHit 1 (some []) (some "Zzz Tribunal".toList) none)).2.1
     "Zzz Tribunal".toList (by decide) (by decide) (by decide)⟩

theorem greedyGo_pieces (cs : Nat) (S : List Str) :
    ∀ (sents : List Str) (current : Str),
      (∀ s ∈ sents, s ∈ S) →
      (current.length ≤ cs + 1 ∨ current ∈ S) →
      ∀ p ∈ greedyGo cs sents current,
        p.length ≤ cs + 1 ∨ p ∈ S.map pyStrip := by
  intro sents
  induction sents with
  | nil =>
    intro current _ hcur p hp
    unfold greedyGo at hp
    split at hp
    · cases hp
    · rw [List.mem_singleton] at hp
      subst hp
      rcases hcur with hlen | hmem
      · exact Or.inl (le_trans (pyStrip_length_le _) hlen)
      · exact Or.inr (List.mem_map_of_mem _ hmem)
  | cons s rest ih =>
    intro current hsub hcur p hp
    unfold greedyGo at hp
    split at hp
    · rcases List.mem_append.mp hp with hp1 | hp2
      · split at hp1
        · cases hp1
        · rw [List.mem_singleton] at hp1
          subst hp1
          rcases hcur with hlen | hmem
          · exact Or.inl (le_trans (pyStrip_length_le _) hlen)
          · exact Or.inr (List.mem_map_of_mem _ hmem)
      · exact ih s (fun x hx => hsub x (List.mem_cons_of_mem _ hx))
          (Or.inr (hsub s (List.mem_cons_self s rest))) p hp2
    · rename_i hfit
      rw [Nat.not_lt] at hfit
      refine ih _ (fun x hx => hsub x (List.mem_cons_of_mem _ hx)) ?_ p hp
      left
      split
      · calc s.length ≤ current.length + s.length := Nat.le_add_left _ _
          _ ≤ cs := hfit
          _ ≤ cs + 1 := Nat.le_succ _
      · simp only [List.length_append, List.length_cons]
        omega

/-- C2 (amended): every piece the size-cap step emits either has length at
most `chunk_size + 1` (the single-space sentence joiner is not counted by the
size check, so a multi-sentence piece can overshoot by exactly one character),
or is a single (stripped) whole sentence — in particular a lone sentence
longer than the cap is emitted unsplit, and sentences are never split
mid-way. -/
theorem size_cap_piece_bound (cs : Nat) (text : Str) :
    ∀ p ∈ splitLargeSection cs text,
      p.length ≤ cs + 1 ∨ p ∈ (splitSentences text).map pyStrip := by
  intro p hp
  unfold splitLargeSection at hp
  split at hp
  · rw [List.mem_singleton] at hp
    subst hp
    rename_i hshort
    exact Or.inl (le_trans hshort (Nat.le_succ _))
  · exact greedyGo_pieces cs (splitSentences text) (splitSentences text) []
      (fun _ hx => hx) (Or.inl (by simp)) p hp

theorem size_cap_piece_bound_witness :
    "a. ab.".toList ∈ splitLargeSection 5 "a. ab.".toList ∧
    (("a. ab.".toList).length ≤ 5 + 1 ∨
      "a. ab.".toList ∈ (splitSentences "a. ab.".toList).map pyStrip) :=
  ⟨by decide, size_cap_piece_bound 5 "a. ab.".toList "a. ab.".toList (by decide)⟩

theorem mergeGo_head_length (minSize : Nat) :
    ∀ (sects : List Str) (buffer B : Str) (rest : List Str),
      mergeGo minSize sects buffer = B :: rest → buffer.length ≤ B.length := by
  intro sects
  induction sects with
  | nil =>
    intro buffer B rest h
    unfold mergeGo at h
    split at h
    · cases h
    · injection h with h1 _
      exact le_of_eq (congrArg List.length h1)
  | cons s ss ih =>
    intro buffer B rest h
    unfold mergeGo at h
    split at h
    · refine le_trans ?_ (ih _ _ _ h)
      split
      · rename_i hemp
        cases buffer with
        | nil => exact Nat.zero_le _
        | cons b bs => simp [List.isEmpty] at hemp
      · simp only [List.length_append, List.length_cons]
        omega
    · split at h
      · cases buffer with
        | nil =>
          exact Nat.zero_le _
        | cons b bs =>
          rename_i hemp
          simp [List.isEmpty] at hemp
      · rw [List.singleton_append] at h
        injection h with h1 _
        exact le_of_eq (congrArg List.length h1)

theorem mergeGo_chain (minSize : Nat) :
    ∀ (sects : List Str) (buffer : Str),
      List.Chain' (fun a b : Str => minSize ≤ a.length + b.length)
        (mergeGo minSize sects buffer) := by
  intro sects
  induction sects with
  | nil =>
    intro buffer
    unfold mergeGo
    split
    · exact List.chain'_nil
    · exact List.chain'_singleton _
  | cons s ss ih =>
    intro buffer
    unfold mergeGo
    split
    · exact ih _
    · rename_i hbig
      rw [Nat.not_lt] at hbig
      split
      · simpa using ih s
      · rw [List.singleton_append, List.chain'_cons']
        refine ⟨fun B hB => ?_, ih s⟩
        cases hmg : mergeGo minSize ss s with
        | nil => rw [hmg] at hB; cases hB
        | cons B0 rest0 =>
          rw [hmg] at hB
          simp only [List.head?_cons, Option.mem_def, Option.some.injEq] at hB
          subst hB
          exact le_trans hbig (Nat.add_le_add_left (mergeGo_head_length _ _ _ _ _ hmg) _)

/-- C5 (amended): the merge step accumulates segments into the buffer while
`len(buffer) + len(next)` is below `min_size`, and emits the old buffer as
soon as that sum reaches `min_size` — before the buffer itself necessarily
does.  Consequently the per-section bound fails (see the counterexample), but
every two consecutive emitted sections have combined length at least
`min_size`. -/
theorem merge_pairwise_min (minSize : Nat) (sections : List Str) :
    List.Chain' (fun a b : Str => minSize ≤ a.length + b.length)
      (mergeSmallSections minSize sections) :=
  mergeGo_chain minSize sections []

/-- C9 counterexample: on the fixture run, the division boost is applied only
to the ELC hit; the other two hits end with `division_boost` absent (`none`),
not recorded as 0 — the source writes the key only in the matching branch. -/
theorem division_boost_absent_cex :
    (rankHits fixtureQuery fixtureHits none 5).map
        (fun l => l.map Hit.division_boost) =
      some [none, some (3/25), none] ∧
    (none : Option ℚ) ≠ some 0 := by
  decide

-- ─── C8: hierarchy monotonicity ──────────────────────────────────────────────

theorem keywordBoostHit_spec (kws : List Str) (ql : Str) (h h' : Hit)
    (he : keywordBoostHit kws ql h = some h') :
    ∃ b : ℚ, 0 ≤ b ∧
      h' = { h with adjusted_score := some (h.score + b), keyword_boost := some b } := by
  unfold keywordBoostHit at he
  cases ht : h.text with
  | none => rw [ht] at he; cases he
  | some t =>
    rw [ht] at he
    simp only [Option.some.injEq] at he
    refine ⟨_, ?_, he.symm⟩
    split
    · positivity
    · positivity

theorem divisionBoostHit_cases (d : Str) (h : Hit) :
    divisionBoostHit d h =
      { h with
          adjusted_score := some ((h.adjusted_score.getD h.score) + divisionBoostAmount),
          division_boost := some divisionBoostAmount } ∨
    divisionBoostHit d h = h := by
  unfold divisionBoostHit
  split
  · exact Or.inl rfl
  · exact Or.inr rfl

theorem rankStagesHit_spec (query : Str) (divOpt : Option Str) (h h' : Hit)
    (hdb : h.division_boost = none)
    (he : rankStagesHit query divOpt h = some h') :
    ∃ b w : ℚ, 0 ≤ b ∧ h'.score = h.score ∧
      h'.keyword_boost = some b ∧ h'.hierarchy_weight = some w ∧
      ((h'.division_boost = some divisionBoostAmount ∧
          h'.adjusted_score = some ((h.score + b) * w + divisionBoostAmount)) ∨
       (h'.division_boost = none ∧
          h'.adjusted_score = some ((h.score + b) * w))) := by
  unfold rankStagesHit at he
  cases hkb : keywordBoostHit (legalKeywords (pyLower query)) (pyLower query) h with
  | none => rw [hkb] at he; cases he
  | some h1 =>
    rw [hkb] at he
    simp only [Option.map_some', Option.some.injEq] at he
    obtain ⟨b, hb, rfl⟩ := keywordBoostHit_spec _ _ _ _ hkb
    cases divOpt with
    | none =>
      subst he
      exact ⟨b, _, hb, rfl, rfl, rfl, Or.inr ⟨hdb, rfl⟩⟩
    | some d =>
      dsimp only at he
      rcases divisionBoostHit_cases d
          (hierarchyBoostHit
            { h with adjusted_score := some (h.score + b), keyword_boost := some b })
        with hcase | hcase
      · rw [hcase] at he
        subst he
        exact ⟨b, _, hb, rfl, rfl, rfl, Or.inl ⟨rfl, rfl⟩⟩
      · rw [hcase] at he
        subst he
        exact ⟨b, _, hb, rfl, rfl, rfl, Or.inr ⟨hdb, rfl⟩⟩

/-- C8 (amended): for two hits with equal non-negative raw score that the
pipeline's per-hit stage composite maps to equal `keyword_boost` and equal
`division_boost`, a strictly higher `hierarchy_weight` yields a higher or
equal `adjusted_score`.  (For negative raw scores the multiplicative
authority weighting reverses the order — see the counterexample.) -/
theorem hierarchy_monotone_nonneg (query : Str) (divOpt : Option Str)
    (h1 h2 h1' h2' : Hit)
    (hd1 : h1.division_boost = none) (hd2 : h2.division_boost = none)
    (he1 : rankStagesHit query divOpt h1 = some h1')
    (he2 : rankStagesHit query divOpt h2 = some h2')
    (hs : h1.score = h2.score) (hpos : 0 ≤ h1.score)
    (hkb : h1'.keyword_boost = h2'.keyword_boost)
    (hdb : h1'.division_boost = h2'.division_boost)
    (w1 w2 a1 a2 : ℚ)
    (hw1 : h1'.hierarchy_weight = some w1)
    (hw2 : h2'.hierarchy_weight = some w2)
    (hw : w2 < w1)
    (ha1 : h1'.adjusted_score = some a1)
    (ha2 : h2'.adjusted_score = some a2) :
    a2 ≤ a1 := by
  obtain ⟨b1, v1, hb1, hsc1, hkb1, hhw1, hcase1⟩ :=
    rankStagesHit_spec query divOpt h1 h1' hd1 he1
  obtain ⟨b2, v2, hb2, hsc2, hkb2, hhw2, hcase2⟩ :=
    rankStagesHit_spec query divOpt h2 h2' hd2 he2
  have hveq1 : v1 = w1 := by
    have := hhw1.symm.trans hw1
    exact Option.some.inj this
  have hveq2 : v2 = w2 := by
    have := hhw2.symm.trans hw2
    exact Option.some.inj this
  have hbeq : b1 = b2 := by
    have := hkb1.symm.trans (hkb.trans hkb2)
    exact Option.some.inj this
  have hmul : (h2.score + b2) * w2 ≤ (h1.score + b1) * w1 := by
    rw [hs, hbeq]
    exact mul_le_mul_of_nonneg_left (le_of_lt hw)
      (by rw [← hs, ← hbeq]; exact add_nonneg hpos hb1)
  rcases hcase1 with ⟨hdb1, hadj1⟩ | ⟨hdb1, hadj1⟩ <;>
    rcases hcase2 with ⟨hdb2, hadj2⟩ | ⟨hdb2, hadj2⟩
  · have e1 : a1 = (h1.score + b1) * v1 + divisionBoostAmount :=
      Option.some.inj (ha1.symm.trans hadj1)
    have e2 : a2 = (h2.score + b2) * v2 + divisionBoostAmount :=
      Option.some.inj (ha2.symm.trans hadj2)
    rw [e1, e2, hveq1, hveq2]
    exact add_le_add_right hmul _
  · rw [hdb1, hdb2] at hdb; cases hdb
  · rw [hdb1, hdb2] at hdb; cases hdb
  · have e1 : a1 = (h1.score + b1) * v1 :=
      Option.some.inj (ha1.symm.trans hadj1)
    have e2 : a2 = (h2.score + b2) * v2 :=
      Option.some.inj (ha2.symm.trans hadj2)
    rw [e1, e2, hveq1, hveq2]
    exact hmul

theorem hierarchy_monotone_nonneg_witness :
    rankStagesHit ['q'] none
        (mkSearchHit (1/2) (some []) (some "Supreme Court".toList) none) =
      some ⟨1/2, some [], some "Supreme Court".toList, none, none, none, none,
        some (1/2), some 0, some 1, none⟩ ∧
    rankStagesHit ['q'] none
        (mkSearchHit (1/2) (some []) (some "Magistrate Court".toList) none) =
      some ⟨1/2, some [], some "Magistrate Court".toList, none, none, none, none,
        some (1/5), some 0, some (2/5), none⟩ ∧
    (1/5 : ℚ) ≤ 1/2 :=
  ⟨by decide, by decide,
   hierarchy_monotone_nonneg ['q'] none
     (mkSearchHit (1/2) (some []) (some "Supreme Court".toList) none)
     (mkSearchHit (1/2) (some []) (some "Magistrate Court".toList) none)
     ⟨1/2, some [], some "Supreme Court".toList, none, none, none, none,
       some (1/2), some 0, some 1, none⟩
     ⟨1/2, some [], some "Magistrate Court".toList, none, none, none, none,
       some (1/5), some 0, some (2/5), none⟩
     (by decide) (by decide) (by decide) (by decide) (by decide) (by decide)
     (by decide) (by decide) 1 (2/5) (1/2) (1/5)
     (by decide) (by decide) (by decide) (by decide) (by decide)⟩

-- ─── C9: the division_boost field ────────────────────────────────────────────

theorem mem_insertDesc {x y : Hit} :
    ∀ {l : List Hit}, y ∈ insertDesc x l → y = x ∨ y ∈ l := by
  intro l
  induction l with
  | nil =>
    intro h
    rw [insertDesc, List.mem_singleton] at h
    exact Or.inl h
  | cons z zs ih =>
    intro h
    unfold insertDesc at h
    split at h
    · rw [List.mem_cons] at h
      rcases h with rfl | h
      · exact Or.inl rfl
      · exact Or.inr h
    · rw [List.mem_cons] at h
      rcases h with rfl | h
      · exact Or.inr (List.mem_cons_self _ _)
      · rcases ih h with h1 | h2
        · exact Or.inl h1
        · exact Or.inr (List.mem_cons_of_mem _ h2)

theorem mem_sortByScoreDesc {y : Hit} {l : List Hit}
    (h : y ∈ sortByScoreDesc l) : y ∈ l := by
  unfold sortByScoreDesc at h
  suffices H : ∀ (m acc : List Hit),
      y ∈ m.foldl (fun acc x => insertDesc x acc) acc → y ∈ acc ∨ y ∈ m by
    rcases H l [] h with h1 | h2
    · cases h1
    · exact h2
  intro m
  induction m with
  | nil => intro acc h; exact Or.inl h
  | cons z zs ih =>
    intro acc h
    rw [List.foldl_cons] at h
    rcases ih _ h with h1 | h2
    · rcases mem_insertDesc h1 with rfl | h3
      · exact Or.inr (List.mem_cons_self _ _)
      · exact Or.inl h3
    · exact Or.inr (List.mem_cons_of_mem _ h2)

theorem mapOpt_mem (f : Hit → Option Hit) :
    ∀ (l r : List Hit), mapOpt f l = some r →
      ∀ h' ∈ r, ∃ h0 ∈ l, f h0 = some h' := by
  intro l
  induction l with
  | nil =>
    intro r hr h' hh'
    unfold mapOpt at hr
    simp only [Option.some.injEq] at hr
    subst hr
    cases hh'
  | cons x xs ih =>
    intro r hr h' hh'
    unfold mapOpt at hr
    cases hfx : f x with
    | none => rw [hfx] at hr; cases hr
    | some y =>
      rw [hfx] at hr
      cases hrec : mapOpt f xs with
      | none => rw [hrec] at hr; cases hr
      | some ys =>
        rw [hrec] at hr
        simp only [Option.map_some', Option.some.injEq] at hr
        subst hr
        rcases List.mem_cons.mp hh' with rfl | hmem
        · exact ⟨x, List.mem_cons_self _ _, hfx⟩
        · obtain ⟨h0, hm, hf⟩ := ih ys hrec h' hmem
          exact ⟨h0, List.mem_cons_of_mem _ hm, hf⟩

theorem keywordBoostHit_db (kws : List Str) (ql : Str) (h h' : Hit)
    (he : keywordBoostHit kws ql h = some h') :
    h'.division_boost = h.division_boost := by
  unfold keywordBoostHit at he
  cases ht : h.text with
  | none => rw [ht] at he; cases he
  | some t =>
    rw [ht] at he
    simp only [Option.some.injEq] at he
    subst he
    rfl

/-- C9 (amended): on fresh hits (no `division_boost` key from the caller),
after the full ranking call each returned hit's `division_boost` is either the
fixed 0.12 (the boost was applied to it) or absent (`none`) — the source never
records an explicit 0; a read with `.get("division_boost", 0)` yields 0 in the
absent case, including when no division was inferred or an explicit court
filter suppressed the stage. -/
theorem division_boost_field_values (query : Str) (hits : List Hit)
    (court : Option Str) (k : Nat) (out : List Hit)
    (hfresh : ∀ h ∈ hits, h.division_boost = none)
    (hrun : rankHits query hits court k = some out) :
    ∀ h' ∈ out, h'.division_boost = some divisionBoostAmount ∨
      h'.division_boost = none := by
  intro h' hmem
  unfold rankHits at hrun
  cases he : hits.isEmpty
  · rw [he] at hrun
    simp only [Bool.false_eq_true, if_false] at hrun
    cases hkb : applyKeywordBoost query hits with
    | none => rw [hkb] at hrun; cases hrun
    | some r1 =>
      rw [hkb] at hrun
      simp only [Option.map_some', Option.some.injEq] at hrun
      subst hrun
      have hmem3 := mem_sortByScoreDesc (List.take_subset _ _ hmem)
      have hr1 : ∀ x ∈ r1, x.division_boost = none := by
        intro x hx
        obtain ⟨h0, h0mem, h0eq⟩ := mapOpt_mem _ hits r1 hkb x hx
        rw [keywordBoostHit_db _ _ _ _ h0eq]
        exact hfresh h0 h0mem
      have hr2 : ∀ x ∈ applyHierarchyBoost r1, x.division_boost = none := by
        intro x hx
        unfold applyHierarchyBoost at hx
        obtain ⟨x0, hx0, rfl⟩ := List.mem_map.mp hx
        exact hr1 x0 hx0
      rcases hd : inferDivision query with _ | d
      · rw [hd] at hmem3
        exact Or.inr (hr2 _ hmem3)
      · rw [hd] at hmem3
        cases hc : truthy court
        · rw [hc] at hmem3
          simp only [Bool.false_eq_true, if_false] at hmem3
          unfold applyDivisionBoost at hmem3
          obtain ⟨x0, hx0, rfl⟩ := List.mem_map.mp hmem3
          simp only [divisionBoostHit]
          split
          · exact Or.inl rfl
          · exact Or.inr (hr2 x0 hx0)
        · rw [hc] at hmem3
          simp only [if_true] at hmem3
          exact Or.inr (hr2 _ hmem3)
  · rw [he] at hrun
    simp only [if_true, Option.some.injEq] at hrun
    subst hrun
    cases hmem

theorem division_boost_field_values_witness :
    (∀ h ∈ [mkSearchHit 1 (some []) none none], h.division_boost = none) ∧
    (∀ h' ∈ [(⟨1, some [], none, none, none, none, none, some (11/20), some 0,
        some (11/20), none⟩ : Hit)],
      h'.division_boost = some divisionBoostAmount ∨ h'.division_boost = none) :=
  ⟨by decide,
   division_boost_field_values ['q'] [mkSearchHit 1 (some []) none none] none 5
     [⟨1, some [], none, none, none, none, none, some (11/20), some 0,
        some (11/20), none⟩]
     (by decide) (by decide)⟩

-- ─── C4: context assembly bounds ─────────────────────────────────────────────

theorem joinDelim_length : ∀ parts : List Str,
    (joinDelim parts).length = (parts.map List.length).sum + 5 * (parts.length - 1) := by
  intro parts
  induction parts with
  | nil => rfl
  | cons p rest ih =>
    cases rest with
    | nil => simp [joinDelim]
    | cons q t =>
      have hdelim : contextDelim.length = 5 := rfl
      simp only [joinDelim, List.length_append, hdelim, ih, List.map_cons,
        List.sum_cons, List.length_cons]
      omega

theorem contextLoop_spec (maxLen : Nat) :
    ∀ (hits : List Hit) (i total : Nat) (parts : List Str),
      total ≤ maxLen →
      contextLoop maxLen hits i total = some parts →
      ∃ k, k ≤ hits.length ∧ chunksFrom i (hits.take k) = some parts ∧
        total + (parts.map List.length).sum ≤ maxLen := by
  intro hits
  induction hits with
  | nil =>
    intro i total parts htot h
    unfold contextLoop at h
    simp only [Option.some.injEq] at h
    subst h
    exact ⟨0, Nat.zero_le _, rfl, by simpa using htot⟩
  | cons hh rest ih =>
    intro i total parts htot h
    unfold contextLoop at h
    split at h
    · cases h
    · rename_i c hc
      split at h
      · simp only [Option.some.injEq] at h
        subst h
        exact ⟨0, Nat.zero_le _, rfl, by simpa using htot⟩
      · have hfit : total + c.length ≤ maxLen := by omega
        cases hrec : contextLoop maxLen rest (i+1) (total + c.length) with
        | none => rw [hrec] at h; cases h
        | some parts' =>
          rw [hrec] at h
          simp only [Option.map_some', Option.some.injEq] at h
          subst h
          obtain ⟨k, hk, hchunks, hsum⟩ := ih (i+1) (total + c.length) parts' hfit hrec
          refine ⟨k + 1, Nat.succ_le_succ hk, ?_, ?_⟩
          · rw [List.take_succ_cons]
            unfold chunksFrom
            rw [hc, hchunks]
            rfl
          · simp only [List.map_cons, List.sum_cons]
            omega

/-- C4 (amended): whenever `retrieve_for_context` returns a block, the block
is the delimiter-join of the per-result blocks of a prefix of the result list
(truncation only drops whole results, never part of one), the summed block
lengths are within the budget, and the emitted string can exceed the budget
only by the 5 characters of each `"\n---\n"` delimiter, which the loop does
not count (see the counterexample). -/
theorem context_whole_results_within_budget (results : List Hit) (maxLen : Nat)
    (s : Str) (hrun : retrieveForContext results maxLen = some s) :
    ∃ k parts, k ≤ results.length ∧
      chunksFrom 1 (results.take k) = some parts ∧
      s = joinDelim parts ∧
      (parts.map List.length).sum ≤ maxLen ∧
      s.length ≤ maxLen + 5 * (parts.length - 1) := by
  unfold retrieveForContext at hrun
  cases hloop : contextLoop maxLen results 1 0 with
  | none => rw [hloop] at hrun; cases hrun
  | some parts =>
    rw [hloop] at hrun
    simp only [Option.map_some', Option.some.injEq] at hrun
    subst hrun
    obtain ⟨k, hk, hchunks, hsum⟩ :=
      contextLoop_spec maxLen results 1 0 parts (Nat.zero_le _) hloop
    have hsum' : (parts.map List.length).sum ≤ maxLen := by simpa using hsum
    refine ⟨k, parts, hk, hchunks, rfl, hsum', ?_⟩
    rw [joinDelim_length]
    omega

theorem context_whole_results_within_budget_witness :
    retrieveForContext ctxHits 200 =
      some ("[Source 1: Unknown Source | Authority: Unknown]\nt\n\n---\n[Source 2: Unknown Source | Authority: Unknown]\nt\n".toList) ∧
    ∃ k parts, k ≤ ctxHits.length ∧
      chunksFrom 1 (ctxHits.take k) = some parts ∧
      ("[Source 1: Unknown Source | Authority: Unknown]\nt\n\n---\n[Source 2: Unknown Source | Authority: Unknown]\nt\n".toList) = joinDelim parts ∧
      (parts.map List.length).sum ≤ 200 ∧
      ("[Source 1: Unknown Source | Authority: Unknown]\nt\n\n---\n[Source 2: Unknown Source | Authority: Unknown]\nt\n".toList).length ≤
        200 + 5 * (parts.length - 1) :=
  ⟨by decide,
   context_whole_results_within_budget ctxHits 200
     ("[Source 1: Unknown Source | Authority: Unknown]\nt\n\n---\n[Source 2: Unknown Source | Authority: Unknown]\nt\n".toList)
     (by decide)⟩

-- ─── C7: chunk invariants ────────────────────────────────────────────────────

theorem pyDropWs_head_nonws : ∀ (l : Str) (c : Char) (r : Str),
    pyDropWs l = c :: r → pyIsWs c = false := by
  intro l
  induction l with
  | nil => intro c r h; cases h
  | cons d t ih =>
    intro c r h
    unfold pyDropWs at h
    split at h
    · exact ih c r h
    · rename_i hd
      injection h with h1 _
      subst h1
      cases hpd : pyIsWs d
      · rfl
      · exact absurd hpd hd

theorem exists_nonws_pyDropWs : ∀ l : Str,
    (∃ c ∈ l, pyIsWs c = false) → ∃ c ∈ pyDropWs l, pyIsWs c = false := by
  intro l
  induction l with
  | nil =>
    intro h
    obtain ⟨c, hc, _⟩ := h
    cases hc
  | cons d t ih =>
    intro h
    obtain ⟨c, hc, hcw⟩ := h
    unfold pyDropWs
    split
    · rename_i hd
      apply ih
      rcases List.mem_cons.mp hc with rfl | hct
      · rw [hd] at hcw; cases hcw
      · exact ⟨c, hct, hcw⟩
    · exact ⟨c, hc, hcw⟩

theorem pyStrip_ne_nil_of_nonws (l : Str) (h : ∃ c ∈ l, pyIsWs c = false) :
    pyStrip l ≠ [] := by
  unfold pyStrip
  intro hcon
  rw [List.reverse_eq_nil_iff] at hcon
  have h2 : ∃ c ∈ (pyDropWs l).reverse, pyIsWs c = false := by
    obtain ⟨c, hc, hw⟩ := exists_nonws_pyDropWs l h
    exact ⟨c, List.mem_reverse.mpr hc, hw⟩
  obtain ⟨c, hc, _⟩ := exists_nonws_pyDropWs _ h2
  rw [hcon] at hc
  cases hc

theorem exists_nonws_pyStrip (l : Str) (h : pyStrip l ≠ []) :
    ∃ c ∈ pyStrip l, pyIsWs c = false := by
  unfold pyStrip at h ⊢
  cases hx : pyDropWs ((pyDropWs l).reverse) with
  | nil => rw [hx] at h; simp at h
  | cons c r =>
    exact ⟨c, List.mem_reverse.mpr (List.mem_cons_self _ _),
      pyDropWs_head_nonws _ _ _ hx⟩

theorem mem_stripFilter {s : Str} {L : List Str} (h : s ∈ stripFilter L) :
    s ≠ [] ∧ ∃ x ∈ L, s = pyStrip x := by
  unfold stripFilter at h
  have h1 := List.mem_filter.mp h
  have h2 := h1.2
  obtain ⟨x, hx, hxe⟩ := List.mem_map.mp h1.1
  refine ⟨?_, x, hx, hxe.symm⟩
  intro hnil
  rw [hnil] at h2
  simp at h2

theorem stripFilter_nonws {s : Str} {L : List Str} (h : s ∈ stripFilter L) :
    ∃ c ∈ s, pyIsWs c = false := by
  obtain ⟨hne, x, hx, rfl⟩ := mem_stripFilter h
  exact exists_nonws_pyStrip x hne

theorem tryPatterns_sections_nonws (text : Str) :
    ∀ (Ps : List (Str → Bool)) (s : Str),
      s ∈ tryPatternsFor text Ps → ∃ c ∈ s, pyIsWs c = false := by
  intro Ps
  induction Ps with
  | nil => intro s hs; exact stripFilter_nonws hs
  | cons P Ps ih =>
    intro s hs
    simp only [tryPatternsFor] at hs
    split at hs
    · exact stripFilter_nonws hs
    · exact ih s hs

theorem splitByLegalSections_nonws {text s : Str}
    (h : s ∈ splitByLegalSections text) : ∃ c ∈ s, pyIsWs c = false :=
  tryPatterns_sections_nonws text _ s h

theorem mergeGo_nonws (minSize : Nat) :
    ∀ (sects : List Str) (buffer : Str),
      (∀ s ∈ sects, ∃ c ∈ s, pyIsWs c = false) →
      (buffer = [] ∨ ∃ c ∈ buffer, pyIsWs c = false) →
      ∀ m ∈ mergeGo minSize sects buffer, ∃ c ∈ m, pyIsWs c = false := by
  intro sects
  induction sects with
  | nil =>
    intro buffer _ hbuf m hm
    unfold mergeGo at hm
    split at hm
    · cases hm
    · rw [List.mem_singleton] at hm
      subst hm
      rcases hbuf with rfl | h
      · rename_i hne; exact absurd rfl hne
      · exact h
  | cons s ss ih =>
    intro buffer hsects hbuf m hm
    unfold mergeGo at hm
    split at hm
    · refine ih _ (fun x hx => hsects x (List.mem_cons_of_mem _ hx)) ?_ m hm
      right
      split
      · exact hsects s (List.mem_cons_self _ _)
      · rename_i hne
        rcases hbuf with rfl | h
        · exact absurd rfl hne
        · obtain ⟨c, hc, hw⟩ := h
          exact ⟨c, List.mem_append.mpr (Or.inl hc), hw⟩
    · rcases List.mem_append.mp hm with hm1 | hm2
      · split at hm1
        · cases hm1
        · rw [List.mem_singleton] at hm1
          subst hm1
          rcases hbuf with rfl | h
          · rename_i hne; exact absurd rfl hne
          · exact h
      · exact ih s (fun x hx => hsects x (List.mem_cons_of_mem _ hx))
          (Or.inr (hsects s (List.mem_cons_self _ _))) m hm2

theorem isSentEnd_nonws (c : Char) (h : isSentEnd c = true) : pyIsWs c = false := by
  have h' : (c = '.' ∨ c = '!') ∨ c = '?' := by
    simpa [isSentEnd, Bool.or_eq_true, decide_eq_true_eq] using h
  rcases h' with (rfl | rfl) | rfl <;> rfl

theorem sGo_pieces : ∀ (l : Str) (sep : Bool) (acc : Str),
    (sep = true → acc = []) →
    (sep = false → ∃ c ∈ acc ++ l, pyIsWs c = false) →
    ∀ p ∈ sGo sep acc l, p = [] ∨ ∃ c ∈ p, pyIsWs c = false := by
  intro l
  induction l with
  | nil =>
    intro sep acc h1 h2 p hp
    unfold sGo at hp
    rw [List.mem_singleton] at hp
    subst hp
    cases sep with
    | true =>
      left
      rw [h1 rfl]
      rfl
    | false =>
      right
      obtain ⟨c, hc, hw⟩ := h2 rfl
      rw [List.append_nil] at hc
      exact ⟨c, List.mem_reverse.mpr hc, hw⟩
  | cons ch rest ih =>
    intro sep acc h1 h2 p hp
    unfold sGo at hp
    split at hp
    · rename_i hcond
      have hsep : sep = true := by
        cases sep
        · simp at hcond
        · rfl
      refine ih sep acc h1 (fun hf => ?_) p hp
      rw [hf] at hsep
      cases hsep
    · rename_i hcond
      split at hp
      · rename_i hcut
        rcases List.mem_cons.mp hp with rfl | hp2
        · right
          have hse : isSentEnd ch = true := by
            cases hie : isSentEnd ch
            · rw [hie] at hcut; simp at hcut
            · rfl
          exact ⟨ch, by simp, isSentEnd_nonws ch hse⟩
        · refine ih true [] (fun _ => rfl) (fun hf => ?_) p hp2
          cases hf
      · rename_i hcut
        refine ih false (ch :: acc) (fun hf => by cases hf) (fun _ => ?_) p hp
        cases sep with
        | true =>
          have hacc := h1 rfl
          subst hacc
          have hch : pyIsWs ch = false := by
            cases hpw : pyIsWs ch
            · rfl
            · exact absurd (by simp [hpw] : (true && pyIsWs ch) = true) hcond
          exact ⟨ch, by simp, hch⟩
        | false =>
          obtain ⟨c, hc, hw⟩ := h2 rfl
          refine ⟨c, ?_, hw⟩
          rcases List.mem_append.mp hc with h | h
          · exact List.mem_append.mpr (Or.inl (List.mem_cons_of_mem _ h))
          · rcases List.mem_cons.mp h with rfl | h
            · exact List.mem_append.mpr (Or.inl (List.mem_cons_self _ _))
            · exact List.mem_append.mpr (Or.inr h)

theorem greedyGo_nonempty (cs : Nat) :
    ∀ (sents : List Str) (current : Str),
      (∀ s ∈ sents, s = [] ∨ ∃ c ∈ s, pyIsWs c = false) →
      (current = [] ∨ ∃ c ∈ current, pyIsWs c = false) →
      ∀ p ∈ greedyGo cs sents current, p ≠ [] := by
  intro sents
  induction sents with
  | nil =>
    intro current _ hcur p hp
    unfold greedyGo at hp
    split at hp
    · cases hp
    · rw [List.mem_singleton] at hp
      subst hp
      rename_i hne
      rcases hcur with rfl | h
      · exact absurd rfl hne
      · exact pyStrip_ne_nil_of_nonws _ h
  | cons s rest ih =>
    intro current hsents hcur p hp
    unfold greedyGo at hp
    split at hp
    · rcases List.mem_append.mp hp with hp1 | hp2
      · split at hp1
        · cases hp1
        · rw [List.mem_singleton] at hp1
          subst hp1
          rename_i hne
          rcases hcur with rfl | h
          · exact absurd rfl hne
          · exact pyStrip_ne_nil_of_nonws _ h
      · exact ih s (fun x hx => hsents x (List.mem_cons_of_mem _ hx))
          (hsents s (List.mem_cons_self _ _)) p hp2
    · refine ih _ (fun x hx => hsents x (List.mem_cons_of_mem _ hx)) ?_ p hp
      split
      · exact hsents s (List.mem_cons_self _ _)
      · rename_i hne
        rcases hcur with rfl | h
        · exact absurd rfl hne
        · obtain ⟨c, hc, hw⟩ := h
          exact Or.inr ⟨c, List.mem_append.mpr (Or.inl hc), hw⟩

theorem splitLargeSection_nonempty (cs : Nat) (text : Str)
    (h : ∃ c ∈ text, pyIsWs c = false) :
    ∀ p ∈ splitLargeSection cs text, p ≠ [] := by
  intro p hp
  unfold splitLargeSection at hp
  split at hp
  · rw [List.mem_singleton] at hp
    subst hp
    obtain ⟨c, hc, _⟩ := h
    intro hnil
    rw [hnil] at hc
    cases hc
  · refine greedyGo_nonempty cs (splitSentences text) [] ?_ (Or.inl rfl) p hp
    intro s hs
    unfold splitSentences at hs
    exact sGo_pieces text false [] (fun hf => by cases hf) (fun _ => by simpa using h) s hs

theorem allChunkTexts_nonempty (cs : Nat) (cleaned : Str) :
    ∀ t ∈ allChunkTexts cs cleaned, t ≠ [] := by
  intro t ht
  unfold allChunkTexts at ht
  rw [List.mem_flatten] at ht
  obtain ⟨piece, hpiece, htp⟩ := ht
  obtain ⟨m, hm, rfl⟩ := List.mem_map.mp hpiece
  have hmnw : ∃ c ∈ m, pyIsWs c = false :=
    mergeGo_nonws 200 _ [] (fun s hs => splitByLegalSections_nonws hs)
      (Or.inl rfl) m hm
  exact splitLargeSection_nonempty cs m hmnw t htp

/-- C7: for a document whose cleaned text is non-empty, every produced chunk
has non-empty text, the `chunk_index` values are exactly `0, 1, …, n−1` in
emission order, and every chunk's `total_chunks` equals the count `n`. -/
theorem chunk_invariants (cs : Nat) (cleaned : Str) (hne : cleaned ≠ []) :
    (∀ ch ∈ chunkDocument cs cleaned, ch.text ≠ []) ∧
    (chunkDocument cs cleaned).map DocumentChunk.chunk_index =
      List.range (chunkDocument cs cleaned).length ∧
    (∀ ch ∈ chunkDocument cs cleaned, ch.total_chunks =
      (chunkDocument cs cleaned).length) := by
  have hie : cleaned.isEmpty = false := by
    cases cleaned
    · exact absurd rfl hne
    · rfl
  have hck : chunkDocument cs cleaned =
      (allChunkTexts cs cleaned).enum.map
        (fun p => ⟨p.2, p.1, (allChunkTexts cs cleaned).length⟩) := by
    unfold chunkDocument
    rw [hie]
    rfl
  refine ⟨?_, ?_, ?_⟩
  · intro ch hch
    rw [hck] at hch
    obtain ⟨p, hp, rfl⟩ := List.mem_map.mp hch
    have hp2 : p.2 ∈ allChunkTexts cs cleaned := by
      rw [List.enum_eq_zip_range] at hp
      exact (List.of_mem_zip hp).2
    exact allChunkTexts_nonempty cs cleaned _ hp2
  · rw [hck, List.map_map]
    have hcomp : (DocumentChunk.chunk_index ∘
        fun p : Nat × Str =>
          (⟨p.2, p.1, (allChunkTexts cs cleaned).length⟩ : DocumentChunk)) =
        Prod.fst := rfl
    rw [hcomp, List.enum_map_fst]
    simp [List.enum_length]
  · intro ch hch
    rw [hck] at hch ⊢
    obtain ⟨p, hp, rfl⟩ := List.mem_map.mp hch
    simp [List.enum_length]

theorem chunk_invariants_witness :
    "Article 1 a\nArticle 2 b".toList ≠ [] ∧
    ((∀ ch ∈ chunkDocument 1000 "Article 1 a\nArticle 2 b".toList, ch.text ≠ []) ∧
     (chunkDocument 1000 "Article 1 a\nArticle 2 b".toList).map
         DocumentChunk.chunk_index =
       List.range (chunkDocument 1000 "Article 1 a\nArticle 2 b".toList).length ∧
     (∀ ch ∈ chunkDocument 1000 "Article 1 a\nArticle 2 b".toList,
       ch.total_chunks =
         (chunkDocument 1000 "Article 1 a\nArticle 2 b".toList).length)) :=
  ⟨by decide, chunk_invariants 1000 "Article 1 a\nArticle 2 b".toList (by decide)⟩

-- ─── C6: whitespace-insensitive reconstruction ───────────────────────────────

theorem nonWs_append (a b : Str) : nonWs (a ++ b) = nonWs a ++ nonWs b := by
  simp [nonWs, List.filter_append]

theorem nonWs_reverse (l : Str) : nonWs l.reverse = (nonWs l).reverse := by
  simp [nonWs, List.filter_reverse]

theorem nonWs_cons (c : Char) (t : Str) : nonWs (c :: t) = nonWs [c] ++ nonWs t := by
  by_cases hc : pyIsWs c = true
  · simp [nonWs, List.filter_cons, hc]
  · simp [nonWs, List.filter_cons, hc]

theorem nonWs_cons_ws (c : Char) (t : Str) (hc : pyIsWs c = true) :
    nonWs (c :: t) = nonWs t := by
  simp [nonWs, List.filter_cons, hc]

theorem nonWs_rev_cons (c : Char) (acc : Str) :
    nonWs ((c :: acc).reverse) = nonWs acc.reverse ++ nonWs [c] := by
  rw [List.reverse_cons, nonWs_append]

theorem nonWs_pyDropWs (l : Str) : nonWs (pyDropWs l) = nonWs l := by
  induction l with
  | nil => rfl
  | cons c t ih =>
    unfold pyDropWs
    split
    · rename_i hc
      rw [ih, nonWs_cons_ws c t hc]
    · rfl

theorem nonWs_pyStrip (l : Str) : nonWs (pyStrip l) = nonWs l := by
  unfold pyStrip
  rw [nonWs_reverse, nonWs_pyDropWs, nonWs_reverse, List.reverse_reverse,
    nonWs_pyDropWs]

theorem lookGo_flatten (P : Str → Bool) :
    ∀ (l acc : Str), (lookGo P acc l).flatten = acc.reverse ++ l := by
  intro l
  induction l with
  | nil => intro acc; simp [lookGo]
  | cons c rest ih =>
    intro acc
    unfold lookGo
    split
    · rw [List.flatten_cons, ih [c]]
      simp
    · rw [ih (c :: acc)]
      simp

theorem nonWs_nil : nonWs [] = [] := rfl

theorem splitOnBlankGo_nil (acc : Str) : splitOnBlankGo acc [] = [acc.reverse] := by
  simp [splitOnBlankGo]

theorem splitOnBlankGo_one (acc : Str) (c : Char) :
    splitOnBlankGo acc [c] = splitOnBlankGo (c :: acc) [] := by
  conv_lhs => rw [splitOnBlankGo]

theorem splitOnBlankGo_cut (acc rest2 : Str) :
    splitOnBlankGo acc ('\n' :: '\n' :: rest2) =
      acc.reverse :: splitOnBlankGo [] rest2 := by
  rw [splitOnBlankGo]
  simp

theorem splitOnBlankGo_step (acc : Str) (c c2 : Char) (rest2 : Str)
    (h : (c = '\n' && c2 = '\n') = false) :
    splitOnBlankGo acc (c :: c2 :: rest2) = splitOnBlankGo (c :: acc) (c2 :: rest2) := by
  rw [splitOnBlankGo]
  simp only [h, Bool.false_eq_true, if_false]

theorem splitOnBlankGo_nonws :
    ∀ (n : Nat) (l acc : Str), l.length ≤ n →
      nonWs ((splitOnBlankGo acc l).flatten) = nonWs acc.reverse ++ nonWs l := by
  intro n
  induction n with
  | zero =>
    intro l acc hl
    have hnil : l = [] := List.eq_nil_of_length_eq_zero (Nat.le_zero.mp hl)
    subst hnil
    rw [splitOnBlankGo_nil]
    simp [nonWs_nil]
  | succ n ih =>
    intro l acc hl
    cases l with
    | nil =>
      rw [splitOnBlankGo_nil]
      simp [nonWs_nil]
    | cons c rest =>
      cases rest with
      | nil =>
        rw [splitOnBlankGo_one, splitOnBlankGo_nil]
        rw [show ((c :: acc).reverse :: ([] : List Str)).flatten = (c :: acc).reverse by simp]
        rw [nonWs_rev_cons, nonWs_cons c []]
      | cons c2 rest2 =>
        by_cases hcond : (c = '\n' && c2 = '\n') = true
        · obtain ⟨hc, hc2⟩ : c = '\n' ∧ c2 = '\n' := by simpa using hcond
          subst hc; subst hc2
          rw [splitOnBlankGo_cut, List.flatten_cons, nonWs_append,
            ih rest2 [] (by simp at hl; omega),
            nonWs_cons_ws _ _ (by rfl), nonWs_cons_ws _ _ (by rfl)]
          simp [nonWs_nil]
        · rw [splitOnBlankGo_step acc c c2 rest2 (Bool.eq_false_iff.mpr hcond),
            ih (c2 :: rest2) (c :: acc) (by simp at hl ⊢; omega),
            nonWs_rev_cons, nonWs_cons c (c2 :: rest2)]
          simp [List.append_assoc]

theorem sGo_nonws : ∀ (l : Str) (sep : Bool) (acc : Str),
    nonWs ((sGo sep acc l).flatten) = nonWs acc.reverse ++ nonWs l := by
  intro l
  induction l with
  | nil => intro sep acc; simp [sGo, nonWs]
  | cons c rest ih =>
    intro sep acc
    unfold sGo
    split
    · rename_i hcond
      have hws : pyIsWs c = true := by
        cases hpw : pyIsWs c
        · rw [hpw, Bool.and_false] at hcond; cases hcond
        · rfl
      rw [ih sep acc, nonWs_cons_ws c rest hws]
    · split
      · rename_i hcut
        have hse : isSentEnd c = true := by
          cases hie : isSentEnd c
          · rw [hie, Bool.false_and] at hcut; cases hcut
          · rfl
        rw [List.flatten_cons, nonWs_append, ih true [], nonWs_append,
          nonWs_cons c rest]
        simp [nonWs, List.append_assoc]
      · rw [ih false (c :: acc), nonWs_rev_cons, nonWs_cons c rest]
        simp [List.append_assoc]

theorem greedyGo_nonws (cs : Nat) :
    ∀ (sents : List Str) (current : Str),
      nonWs ((greedyGo cs sents current).flatten) =
        nonWs current ++ nonWs sents.flatten := by
  have hif : ∀ cur : Str,
      nonWs ((if cur.isEmpty = true then ([] : List Str) else [pyStrip cur]).flatten) =
        nonWs cur := by
    intro cur
    split
    · rename_i hemp
      cases cur with
      | nil => rfl
      | cons a b => simp [List.isEmpty] at hemp
    · rw [List.flatten_cons, List.flatten_nil, List.append_nil, nonWs_pyStrip]
  intro sents
  induction sents with
  | nil =>
    intro current
    unfold greedyGo
    rw [hif current]
    simp [nonWs_nil]
  | cons s rest ih =>
    intro current
    unfold greedyGo
    split
    · rw [List.flatten_append, nonWs_append, ih s, hif current,
        List.flatten_cons, nonWs_append]
    · have hcur : nonWs (if current.isEmpty = true then s else current ++ ' ' :: s) =
          nonWs current ++ nonWs s := by
        split
        · rename_i hemp
          cases current with
          | nil => simp [nonWs_nil]
          | cons a b => simp [List.isEmpty] at hemp
        · rw [nonWs_append, nonWs_cons_ws ' ' s (by rfl)]
      rw [ih _, hcur, List.flatten_cons, nonWs_append, List.append_assoc]

theorem splitLargeSection_nonws (cs : Nat) (text : Str) :
    nonWs ((splitLargeSection cs text).flatten) = nonWs text := by
  unfold splitLargeSection
  split
  · simp
  · rw [greedyGo_nonws]
    unfold splitSentences
    rw [sGo_nonws]
    simp [nonWs_nil]

theorem mergeGo_nonws_flatten (minSize : Nat) :
    ∀ (sects : List Str) (buffer : Str),
      nonWs ((mergeGo minSize sects buffer).flatten) =
        nonWs buffer ++ nonWs sects.flatten := by
  have hif : ∀ buf : Str,
      nonWs ((if buf.isEmpty = true then ([] : List Str) else [buf]).flatten) =
        nonWs buf := by
    intro buf
    split
    · rename_i hemp
      cases buf with
      | nil => rfl
      | cons a b => simp [List.isEmpty] at hemp
    · rw [List.flatten_cons, List.flatten_nil, List.append_nil]
  intro sects
  induction sects with
  | nil =>
    intro buffer
    unfold mergeGo
    rw [hif buffer]
    simp [nonWs_nil]
  | cons s ss ih =>
    intro buffer
    unfold mergeGo
    split
    · have hbuf : nonWs (if buffer.isEmpty = true then s
          else buffer ++ '\n' :: '\n' :: s) = nonWs buffer ++ nonWs s := by
        split
        · rename_i hemp
          cases buffer with
          | nil => simp [nonWs_nil]
          | cons a b => simp [List.isEmpty] at hemp
        · rw [nonWs_append, nonWs_cons_ws '\n' _ (by rfl),
            nonWs_cons_ws '\n' _ (by rfl)]
      rw [ih _, hbuf, List.flatten_cons, nonWs_append, List.append_assoc]
    · rw [List.flatten_append, nonWs_append, ih s, hif buffer,
        List.flatten_cons, nonWs_append]

theorem flatten_filter_nonempty : ∀ M : List Str,
    (M.filter (fun s => !s.isEmpty)).flatten = M.flatten := by
  intro M
  induction M with
  | nil => rfl
  | cons s rest ih =>
    cases s with
    | nil => simpa using ih
    | cons a b => simpa using ih

theorem stripFilter_nonws_flatten (L : List Str) :
    nonWs ((stripFilter L).flatten) = nonWs L.flatten := by
  unfold stripFilter
  rw [flatten_filter_nonempty]
  induction L with
  | nil => rfl
  | cons x rest ih =>
    simp only [List.map_cons, List.flatten_cons, nonWs_append, nonWs_pyStrip, ih]

theorem tryPatternsFor_nonws (text : Str) :
    ∀ Ps : List (Str → Bool),
      nonWs ((tryPatternsFor text Ps).flatten) = nonWs text := by
  intro Ps
  induction Ps with
  | nil =>
    show nonWs ((stripFilter (splitOnBlank text)).flatten) = nonWs text
    rw [stripFilter_nonws_flatten]
    unfold splitOnBlank
    rw [splitOnBlankGo_nonws text.length text [] (le_refl _)]
    simp [nonWs]
  | cons P Ps ih =>
    simp only [tryPatternsFor]
    split
    · rw [stripFilter_nonws_flatten]
      unfold splitLookahead
      rw [lookGo_flatten]
      simp
    · exact ih

theorem allChunkTexts_nonws (cs : Nat) (cleaned : Str) :
    nonWs ((allChunkTexts cs cleaned).flatten) = nonWs cleaned := by
  unfold allChunkTexts
  have hstep : ∀ M : List Str,
      nonWs (((M.map (splitLargeSection cs)).flatten).flatten) = nonWs M.flatten := by
    intro M
    induction M with
    | nil => rfl
    | cons m ms ih =>
      rw [List.map_cons, List.flatten_cons, List.flatten_append, nonWs_append,
        splitLargeSection_nonws, ih, List.flatten_cons, nonWs_append]
  rw [hstep]
  unfold mergeSmallSections
  rw [mergeGo_nonws_flatten]
  show nonWs [] ++ _ = _
  rw [nonWs_nil, List.nil_append]
  exact tryPatternsFor_nonws cleaned _

/-- C6 (amended): for a document whose cleaned text is non-empty,
concatenating the chunk texts in chunk order reconstructs the cleaned source
text up to whitespace: its non-whitespace characters, in order, are exactly
those of the cleaned text.  Exact reconstruction fails (see the
counterexample) because section splitting strips whitespace at the boundaries
and the merge/size-cap steps re-join with `"\n\n"`/`" "` regardless of the
original separators. -/
theorem chunk_concat_reconstruct_nonws (cs : Nat) (cleaned : Str)
    (hne : cleaned ≠ []) :
    nonWs (((chunkDocument cs cleaned).map DocumentChunk.text).flatten) =
      nonWs cleaned := by
  have hie : cleaned.isEmpty = false := by
    cases cleaned
    · exact absurd rfl hne
    · rfl
  have hck : chunkDocument cs cleaned =
      (allChunkTexts cs cleaned).enum.map
        (fun p => ⟨p.2, p.1, (allChunkTexts cs cleaned).length⟩) := by
    unfold chunkDocument
    rw [hie]
    rfl
  rw [hck, List.map_map]
  have hcomp : (DocumentChunk.text ∘
      fun p : Nat × Str =>
        (⟨p.2, p.1, (allChunkTexts cs cleaned).length⟩ : DocumentChunk)) =
      Prod.snd := rfl
  rw [hcomp, List.enum_map_snd]
  exact allChunkTexts_nonws cs cleaned

theorem chunk_concat_reconstruct_nonws_witness :
    "Article 1 a\nArticle 2 b".toList ≠ [] ∧
    nonWs (((chunkDocument 1000 "Article 1 a\nArticle 2 b".toList).map
        DocumentChunk.text).flatten) =
      nonWs "Article 1 a\nArticle 2 b".toList :=
  ⟨by decide,
   chunk_concat_reconstruct_nonws 1000 "Article 1 a\nArticle 2 b".toList (by decide)⟩

end KenyaLegal
